import Mathlib

/-!
Verification of the day-splitting log tool (`src/index.ts`): the date pattern
registry, the format detector (`chooseExtractor`), the date extractor
(`extractDate` and the loose fallback), the sampler (`sampleLines`) and the
day router (`splitFileByDay`).

Lines are embedded as `List Char`.  The JavaScript regexes of the pattern
registry are hand-compiled to total matching functions with the exact
semantics of `RegExp.exec` on a regex without the `g` flag: scan start
positions left to right, at each position match greedily with backtracking.
All regexes in the source end with an optional time group `(?:...)?` whose
captures are never read by `toISODate`; since an optional trailing group can
neither make a match fail nor change the date captures, the embedding matches
only the mandatory part of each regex.
-/

namespace LogSplitter

/-- JS `\w` word character class: `[A-Za-z0-9_]`. -/
def isWordChar (c : Char) : Bool := c.isAlpha || c.isDigit || c = '_'

/-- JS `\s` whitespace class: ASCII whitespace plus the Unicode space
separators, NBSP, line and paragraph separators and the BOM. -/
def isJsWs (c : Char) : Bool :=
  c = ' ' || c = '\t' || c = '\n' || c = '\r' || c = '\x0b' || c = '\x0c' ||
  c.toNat = 0xa0 || c.toNat = 0x1680 ||
  (0x2000 ≤ c.toNat && c.toNat ≤ 0x200a) ||
  c.toNat = 0x2028 || c.toNat = 0x2029 || c.toNat = 0x202f ||
  c.toNat = 0x205f || c.toNat = 0x3000 || c.toNat = 0xfeff

/-- Exactly `n` characters satisfying `p`: the matched run and the rest. -/
def takeCount (p : Char → Bool) : Nat → List Char → Option (List Char × List Char)
  | 0, s => some ([], s)
  | _ + 1, [] => none
  | n + 1, c :: r =>
    if p c then (takeCount p n r).map (fun t => (c :: t.1, t.2)) else none

/-- A single literal character. -/
def lit (c : Char) : List Char → Option (List Char)
  | [] => none
  | a :: r => if a = c then some r else none

/-- JS `\s+`: at least one whitespace character, maximal munch.  In every
regex of the registry `\s+` is followed by a digit class, which is disjoint
from whitespace, so maximal munch coincides with greedy backtracking. -/
def wsPlus : List Char → Option (List Char)
  | [] => none
  | c :: r => if isJsWs c then some (r.dropWhile isJsWs) else none

/-- JS `\d{1,2}` with greedy backtracking: try two digits, and if the rest of
the pattern `k` fails, retry with one digit. -/
def digits12Then (k : String → List Char → Option α) : List Char → Option α
  | [] => none
  | [a] => if a.isDigit then k (String.mk [a]) [] else none
  | a :: b :: rest =>
    if a.isDigit then
      if b.isDigit then
        (k (String.mk [a, b]) rest).orElse (fun _ => k (String.mk [a]) (b :: rest))
      else k (String.mk [a]) (b :: rest)
    else none

/-- Leftmost match: try the pattern at each start position in order. -/
def firstMatch (p : List Char → Option α) : List Char → Option α
  | [] => p []
  | c :: rest => (p (c :: rest)).orElse (fun _ => firstMatch p rest)

/-- Leftmost match for a pattern that inspects the preceding character
(needed for the `\b` word boundaries of the syslog regex). -/
def firstMatchCtx (p : Option Char → List Char → Option α) :
    Option Char → List Char → Option α
  | prev, [] => p prev []
  | prev, c :: rest => (p prev (c :: rest)).orElse (fun _ => firstMatchCtx p (some c) rest)

/-- Whether an optional boundary character is a word character (absent
characters, i.e. the ends of the string, count as non-word). -/
def isWordOpt : Option Char → Bool
  | none => false
  | some c => isWordChar c

/-- Month abbreviations, exactly the source's `MONTHS` array. -/
def MONTHS : List String :=
  ["Jan", "Feb", "Mar", "Apr", "May", "Jun", "Jul", "Aug", "Sep", "Oct", "Nov", "Dec"]

/-- ASCII lower-casing of one character.  The strings compared through it
are the `MONTHS` entries and `[A-Za-z]{3}` match tokens, all ASCII, on which
JS `toLowerCase` is exactly this map. -/
def lowerChar (c : Char) : Char :=
  if 'A' ≤ c ∧ c ≤ 'Z' then Char.ofNat (c.toNat + 32) else c

/-- ASCII lower-casing of a string. -/
def lowerStr (s : String) : String := String.mk (s.toList.map lowerChar)

/-- The source's `MONTHS.findIndex((x) => x.toLowerCase() === m.toLowerCase())`,
as an `Option` instead of `-1`. -/
def monthIndex (s : String) : Option Nat :=
  MONTHS.findIdx? (fun x => lowerStr x = lowerStr s)

/-- Decimal digit character. -/
def digitChar (n : Nat) : Char := Char.ofNat ('0'.toNat + n)

/-- Decimal digits of `n`, via structural fuel so that the kernel can
evaluate it (the fuel bound covers every `Nat` below `10 ^ fuel`). -/
def natDigits : Nat → Nat → List Char
  | 0, _ => []
  | fuel + 1, n => if n < 10 then [digitChar n] else natDigits fuel (n / 10) ++ [digitChar (n % 10)]

/-- JS `String(n)` for a natural number: its decimal rendering. -/
def natToStr (n : Nat) : String := String.mk (natDigits 40 n)

/-- JS `String(n).padStart(2, '0')` for the `n ≤ 9999` values produced here. -/
def pad2 (n : Nat) : String :=
  if n < 10 then "0" ++ natToStr n else natToStr n

/-- JS `parseInt(s, 10)` on a non-empty all-digit string. -/
def digitsToNat (s : String) : Nat :=
  s.toList.foldl (fun n c => n * 10 + (c.toNat - '0'.toNat)) 0

/-- A date pattern of the registry: `name`, the compiled `regex` (`exec`
returns the captured groups of the leftmost match) and `toISODate`. -/
structure DateExtractor where
  name : String
  exec : List Char → Option (List String)
  toISODate : List String → Option String

/-- Mandatory part of `/(\d{4})-(\d{2})-(\d{2})(?:[ T]...)?/` at one position. -/
def isoAt (s : List Char) : Option (List String) := do
  let (y, r1) ← takeCount Char.isDigit 4 s
  let r2 ← lit '-' r1
  let (mo, r3) ← takeCount Char.isDigit 2 r2
  let r4 ← lit '-' r3
  let (d, _) ← takeCount Char.isDigit 2 r4
  pure [String.mk y, String.mk mo, String.mk d]

/-- The `iso-8601` registry entry: ``toISODate`` is `` `${m[1]}-${m[2]}-${m[3]}` ``. -/
def isoExtractor : DateExtractor where
  name := "iso-8601"
  exec := firstMatch isoAt
  toISODate := fun g =>
    match g with
    | [y, mo, d] => some (y ++ "-" ++ mo ++ "-" ++ d)
    | _ => none

/-- Mandatory part of `/(\d{4})\/(\d{2})\/(\d{2})(?:[ T]...)?/` at one position. -/
def slashYmdAt (s : List Char) : Option (List String) := do
  let (y, r1) ← takeCount Char.isDigit 4 s
  let r2 ← lit '/' r1
  let (mo, r3) ← takeCount Char.isDigit 2 r2
  let r4 ← lit '/' r3
  let (d, _) ← takeCount Char.isDigit 2 r4
  pure [String.mk y, String.mk mo, String.mk d]

/-- The `yyyy/mm/dd` registry entry. -/
def slashYmdExtractor : DateExtractor where
  name := "yyyy/mm/dd"
  exec := firstMatch slashYmdAt
  toISODate := fun g =>
    match g with
    | [y, mo, d] => some (y ++ "-" ++ mo ++ "-" ++ d)
    | _ => none

/-- Mandatory part of `/(\d{2})\/(\d{2})\/(\d{4})(?:[ T]...)?/` at one position. -/
def slashDmyAt (s : List Char) : Option (List String) := do
  let (d, r1) ← takeCount Char.isDigit 2 s
  let r2 ← lit '/' r1
  let (mo, r3) ← takeCount Char.isDigit 2 r2
  let r4 ← lit '/' r3
  let (y, _) ← takeCount Char.isDigit 4 r4
  pure [String.mk d, String.mk mo, String.mk y]

/-- The `dd/mm/yyyy` registry entry: ``toISODate`` is `` `${m[3]}-${m[2]}-${m[1]}` ``. -/
def slashDmyExtractor : DateExtractor where
  name := "dd/mm/yyyy"
  exec := firstMatch slashDmyAt
  toISODate := fun g =>
    match g with
    | [d, mo, y] => some (y ++ "-" ++ mo ++ "-" ++ d)
    | _ => none

/-- Mandatory part of `/(\d{2})-([A-Za-z]{3})-(\d{4})(?:[ T]...)?/` at one position. -/
def ddMonAt (s : List Char) : Option (List String) := do
  let (d, r1) ← takeCount Char.isDigit 2 s
  let r2 ← lit '-' r1
  let (mon, r3) ← takeCount Char.isAlpha 3 r2
  let r4 ← lit '-' r3
  let (y, _) ← takeCount Char.isDigit 4 r4
  pure [String.mk d, String.mk mon, String.mk y]

/-- The `dd-mon-yyyy` registry entry: the month abbreviation is looked up in
`MONTHS`; an unknown abbreviation yields `none`. -/
def ddMonExtractor : DateExtractor where
  name := "dd-mon-yyyy"
  exec := firstMatch ddMonAt
  toISODate := fun g =>
    match g with
    | [d, mon, y] =>
      match monthIndex mon with
      | none => none
      | some i => some (y ++ "-" ++ pad2 (i + 1) ++ "-" ++ d)
    | _ => none

/-- Mandatory part of
`/([A-Za-z]{3})\s+(\d{1,2}),\s+(\d{4})\s+(\d{2}):(\d{2})(?::(\d{2}))?/`
at one position (the trailing optional seconds group is uncaptured). -/
def monDdAt (s : List Char) : Option (List String) := do
  let (mon, r1) ← takeCount Char.isAlpha 3 s
  let r2 ← wsPlus r1
  digits12Then (fun dd r3 => do
    let r4 ← lit ',' r3
    let r5 ← wsPlus r4
    let (y, r6) ← takeCount Char.isDigit 4 r5
    let r7 ← wsPlus r6
    let (_, r8) ← takeCount Char.isDigit 2 r7
    let r9 ← lit ':' r8
    let (_, _) ← takeCount Char.isDigit 2 r9
    pure [String.mk mon, dd, String.mk y]) r2

/-- The `mon dd, yyyy` registry entry: the day is re-rendered with
`String(parseInt(m[2], 10)).padStart(2, '0')`. -/
def monDdExtractor : DateExtractor where
  name := "mon dd, yyyy"
  exec := firstMatch monDdAt
  toISODate := fun g =>
    match g with
    | [mon, dd, y] =>
      match monthIndex mon with
      | none => none
      | some i => some (y ++ "-" ++ pad2 (i + 1) ++ "-" ++ pad2 (digitsToNat dd))
    | _ => none

/-- The pattern `/\b([A-Za-z]{3})\s+(\d{1,2})\s+(\d{2}):(\d{2}):(\d{2})\b/`
at one position, given the preceding character.  The leading `\b` sits before
an `[A-Za-z]` (a word character), so it holds exactly when the previous
character is not a word character; the trailing `\b` sits after a digit, so
it holds exactly when the next character is not a word character. -/
def syslogAt (prev : Option Char) (s : List Char) : Option (List String) :=
  if isWordOpt prev then none
  else do
    let (mon, r1) ← takeCount Char.isAlpha 3 s
    let r2 ← wsPlus r1
    digits12Then (fun dd r3 => do
      let r4 ← wsPlus r3
      let (_, r5) ← takeCount Char.isDigit 2 r4
      let r6 ← lit ':' r5
      let (_, r7) ← takeCount Char.isDigit 2 r6
      let r8 ← lit ':' r7
      let (_, r9) ← takeCount Char.isDigit 2 r8
      if isWordOpt r9.head? then none else pure [String.mk mon, dd]) r2

/-- The `syslog-mon dd hh:mm:ss` registry entry.  The source reads the
current year with `new Date().getFullYear()`; here it is the parameter
`nowYear`. -/
def syslogExtractor (nowYear : Nat) : DateExtractor where
  name := "syslog-mon dd hh:mm:ss"
  exec := fun s => firstMatchCtx syslogAt none s
  toISODate := fun g =>
    match g with
    | [mon, dd] =>
      match monthIndex mon with
      | none => none
      | some i => some (natToStr nowYear ++ "-" ++ pad2 (i + 1) ++ "-" ++ pad2 (digitsToNat dd))
    | _ => none

/-- The registry, in the source's registration order. -/
def extractors (nowYear : Nat) : List DateExtractor :=
  [isoExtractor, slashYmdExtractor, slashDmyExtractor, ddMonExtractor,
   monDdExtractor, syslogExtractor nowYear]

/-- One separator character of the class `[-\/]`: a dash or a slash. -/
def sepChar : List Char → Option (Char × List Char)
  | [] => none
  | c :: r => if c = '-' ∨ c = '/' then some (c, r) else none

/-- The loose fallback regex `/(\d{4})[-\/](\d{2})[-\/](\d{2})/` at one
position.  Note the two separator character classes are independent: each is
`[-\/]` on its own, so the two separators need not agree. -/
def looseAt (s : List Char) : Option (String × String × String) := do
  let (y, r1) ← takeCount Char.isDigit 4 s
  let (_, r2) ← sepChar r1
  let (mo, r3) ← takeCount Char.isDigit 2 r2
  let (_, r4) ← sepChar r3
  let (d, _) ← takeCount Char.isDigit 2 r4
  pure (String.mk y, String.mk mo, String.mk d)

/-- The fallback branch of `extractDate`: on a loose match the result is
`` `${loose[1]}-${loose[2]}-${loose[3]}` ``. -/
def looseFallback (line : List Char) : Option String :=
  match firstMatch looseAt line with
  | some (y, mo, d) => some (y ++ "-" ++ mo ++ "-" ++ d)
  | none => none

/-- The source's `extractDate(line, ex)`: if a pattern was chosen and its
regex matches, return `ex.toISODate(m) ?? null` (a normalization rejection
returns at once, without trying the fallback); otherwise try the loose
fallback. -/
def extractDate (line : List Char) (ex : Option DateExtractor) : Option String :=
  match ex with
  | some e =>
    match e.exec line with
    | some m => e.toISODate m
    | none => looseFallback line
  | none => looseFallback line

/-- Per-pattern tally of `chooseExtractor`: the number of sampled lines on
which the pattern's regex matches.  The source accumulates the tallies in a
`Map` keyed by `ex.name`; the registry's names are pairwise distinct, so the
map holds exactly this count for each registry entry. -/
def countMatches (ex : DateExtractor) (lines : List (List Char)) : Nat :=
  (lines.filter (fun l => (ex.exec l).isSome)).length

/-- The selection loop of `chooseExtractor`: starting from
`best = null, bestCount = 0`, walk the registry in order and replace the
current best exactly when the tally is strictly greater. -/
def chooseAux (lines : List (List Char)) :
    List DateExtractor → Option DateExtractor × Nat → Option DateExtractor × Nat
  | [], acc => acc
  | ex :: rest, acc =>
    chooseAux lines rest
      (if acc.2 < countMatches ex lines then (some ex, countMatches ex lines) else acc)

/-- The source's `chooseExtractor(lines)` over the registry `exs`:
`if (best && (bestCount >= 3 || lines.length <= 10)) return best;`
`return bestCount > 0 ? best : null;`. -/
def chooseExtractor (exs : List DateExtractor) (lines : List (List Char)) :
    Option DateExtractor :=
  let r := chooseAux lines exs (none, 0)
  if r.1.isSome ∧ (3 ≤ r.2 ∨ lines.length ≤ 10) then r.1
  else if 0 < r.2 then r.1 else none

/-- UTF-8 byte length of one character, modelling `Buffer.byteLength` per
code point. -/
def charUtf8Size (c : Char) : Nat :=
  if c.toNat < 0x80 then 1
  else if c.toNat < 0x800 then 2
  else if c.toNat < 0x10000 then 3
  else 4

/-- JS `Buffer.byteLength(line)`: UTF-8 byte length of a line. -/
def utf8Len (l : List Char) : Nat := (l.map charUtf8Size).sum

/-- Total byte length of a list of lines. -/
def sumBytes (ls : List (List Char)) : Nat := (ls.map utf8Len).sum

/-- The loop of `sampleLines`: push each line, add its byte length, and stop
as soon as `lines.length >= maxLines || bytes >= maxBytes` — the check runs
after the push, so the line that reaches a limit is still included. -/
def sampleAux (maxLines maxBytes : Nat) :
    List (List Char) → List (List Char) → Nat → List (List Char)
  | [], acc, _ => acc.reverse
  | l :: rest, acc, bytes =>
    if maxLines ≤ (l :: acc).length ∨ maxBytes ≤ bytes + utf8Len l then (l :: acc).reverse
    else sampleAux maxLines maxBytes rest (l :: acc) (bytes + utf8Len l)

/-- The source's `sampleLines(filePath, maxLines, maxBytes = 256 * 1024)`,
with the file given as its list of lines. -/
def sampleLines (file : List (List Char)) (maxLines : Nat)
    (maxBytes : Nat := 256 * 1024) : List (List Char) :=
  sampleAux maxLines maxBytes file [] 0

/-- Node's `path.extname` for a plain base name (no directory separators):
the substring from the last dot, except that a dot at position 0 (a hidden
file) yields the empty string. -/
def extname (base : String) : String :=
  let cs := base.toList
  match cs.reverse.findIdx? (fun c => c = '.') with
  | none => ""
  | some j =>
    let i := cs.length - 1 - j
    if i = 0 then "" else String.mk (cs.drop i)

/-- Node's `path.basename(base, ext)` for a plain base name: strips `ext`
when it is a proper suffix of `base` (Node keeps the name when it equals the
suffix). -/
def basenameDrop (base ext : String) : String :=
  let cs := base.toList
  let es := ext.toList
  if es ≠ [] ∧ cs ≠ es ∧ es.length ≤ cs.length ∧ cs.drop (cs.length - es.length) = es then
    String.mk (cs.take (cs.length - es.length))
  else base

/-- The source's `safeOutName(base, day)`:
`` `${name}.${day}${cleanExt}` `` with `cleanExt = ext && ext !== '.' ? ext : '.log'`. -/
def safeOutName (base day : String) : String :=
  let ext := extname base
  let name := basenameDrop base ext
  let cleanExt := if ext ≠ "" ∧ ext ≠ "." then ext else ".log"
  name ++ "." ++ day ++ cleanExt

/-- One iteration of the routing loop of `splitFileByDay`.  The state is the
per-bucket file contents (the writer of a bucket is opened with
`{ flags: 'a' }`, so its writes extend whatever content the bucket's file
already holds) together with `lastDay`.  Exactly as in the source, the line's
date is extracted twice: once for the routing key and once for the `lastDay`
update.  The periodic cork/uncork flush does not alter contents and is not
modelled. -/
def splitStep (ex : Option DateExtractor) (ub : String)
    (st : (String → List Char) × Option String) (line : List Char) :
    (String → List Char) × Option String :=
  let day :=
    match extractDate line ex with
    | some d => d
    | none =>
      match st.2 with
      | some l => l
      | none => ub
  (fun k => if k = day then st.1 k ++ line ++ ['\n'] else st.1 k,
   match extractDate line ex with
   | some d => some d
   | none => st.2)

/-- The routing loop of `splitFileByDay(filePath, outDir, { ex, unknownBucket })`
over the file's lines.  `init` gives the content each bucket's output file
already has when its append-mode writer is created (empty on a fresh output
directory); the result is the final per-bucket contents and `lastDay`. -/
def splitFileByDay (ex : Option DateExtractor) (ub : String)
    (lines : List (List Char)) (init : String → List Char) :
    (String → List Char) × Option String :=
  lines.foldl (splitStep ex ub) (init, none)

/-- Reference router for the refinement claim: identical to `splitStep`
except that the date is extracted once and the result reused for both the
routing key and the `lastDay` update. -/
def splitStepRef (ex : Option DateExtractor) (ub : String)
    (st : (String → List Char) × Option String) (line : List Char) :
    (String → List Char) × Option String :=
  let d := extractDate line ex
  let day :=
    match d with
    | some v => v
    | none =>
      match st.2 with
      | some l => l
      | none => ub
  (fun k => if k = day then st.1 k ++ line ++ ['\n'] else st.1 k,
   match d with
   | some v => some v
   | none => st.2)

/-- Reference single-extraction router. -/
def splitFileByDayRef (ex : Option DateExtractor) (ub : String)
    (lines : List (List Char)) (init : String → List Char) :
    (String → List Char) × Option String :=
  lines.foldl (splitStepRef ex ub) (init, none)

/-- The routing key exactly as claim and spec state it: the extracted date if
present, else `lastKnownDay` if set, else the unknown-bucket name. -/
def routeKeySpec (ex : Option DateExtractor) (ub : String)
    (last : Option String) (line : List Char) : String :=
  match extractDate line ex with
  | some d => d
  | none =>
    match last with
    | some l => l
    | none => ub

/-- Gregorian leap year. -/
def isLeap (y : Nat) : Bool := (y % 4 = 0 && y % 100 ≠ 0) || y % 400 = 0

/-- Days in a month of the Gregorian calendar. -/
def daysInMonth (y m : Nat) : Nat :=
  if m = 2 then (if isLeap y then 29 else 28)
  else if m = 4 ∨ m = 6 ∨ m = 9 ∨ m = 11 then 30
  else 31

/-- Validity of a calendar date, in the sense the spec words it (month 1..12,
day within the month).  The source never range-checks components; this
predicate only serves as the hypothesis of the validity-conditioned claim. -/
def validDate (y mo d : String) : Bool :=
  let m := digitsToNat mo
  let dd := digitsToNat d
  1 ≤ m && m ≤ 12 && 1 ≤ dd && dd ≤ daysInMonth (digitsToNat y) m

/-- Update of `lastDay` exactly as claim and spec state it: replaced by the
extracted date when extraction succeeds, kept otherwise. -/
def lastDaySpec (ex : Option DateExtractor) (last : Option String)
    (line : List Char) : Option String :=
  match extractDate line ex with
  | some d => some d
  | none => last

/-- Starts p l: `p` is an initial segment of `l`. -/
def Starts (p l : List Char) : Prop := ∃ t, p ++ t = l

/-- Starts for line lists (sampling results). -/
def StartsL (p l : List (List Char)) : Prop := ∃ t, p ++ t = l

/-- One line of 262145 bytes, used to exhibit the sampler byte overshoot. -/
def bigLine : List Char := List.replicate 262145 'a'

/-- Soundness of `takeCount`: a successful run splits the input and consists
of `n` characters of the class. -/
lemma takeCount_sound {p : Char → Bool} :
    ∀ {n : Nat} {s t r : List Char}, takeCount p n s = some (t, r) →
      s = t ++ r ∧ t.length = n ∧ ∀ c ∈ t, p c = true := by
  intro n
  induction n with
  | zero =>
    intro s t r h
    simp only [takeCount, Option.some.injEq, Prod.mk.injEq] at h
    obtain ⟨h1, h2⟩ := h
    subst h1; subst h2
    exact ⟨rfl, rfl, by simp⟩
  | succ n ih =>
    intro s t r h
    cases s with
    | nil => simp [takeCount] at h
    | cons c s' =>
      simp only [takeCount] at h
      by_cases hp : p c
      · rw [if_pos hp] at h
        cases htc : takeCount p n s' with
        | none => rw [htc] at h; simp at h
        | some pr =>
          rw [htc] at h
          simp only [Option.map_some', Option.some.injEq, Prod.mk.injEq] at h
          obtain ⟨h1, h2⟩ := h
          obtain ⟨hs, hl, hall⟩ := ih htc
          subst h2
          rw [← h1]
          refine ⟨by rw [hs]; rfl, by simp [hl], ?_⟩
          intro x hx
          rcases List.mem_cons.mp hx with hx | hx
          · rw [hx]; exact hp
          · exact hall x hx
      · rw [if_neg hp] at h; simp at h

/-- Soundness of the scanner: a leftmost match happens at some split point. -/
lemma firstMatch_sound {α : Type} {p : List Char → Option α} :
    ∀ {s : List Char} {a : α}, firstMatch p s = some a →
      ∃ pre suf, s = pre ++ suf ∧ p suf = some a := by
  intro s
  induction s with
  | nil =>
    intro a h
    exact ⟨[], [], rfl, h⟩
  | cons c rest ih =>
    intro a h
    simp only [firstMatch] at h
    cases hp : p (c :: rest) with
    | some b =>
      rw [hp] at h
      simp only [Option.orElse] at h
      exact ⟨[], c :: rest, rfl, by rw [hp, h]⟩
    | none =>
      rw [hp] at h
      simp only [Option.orElse] at h
      obtain ⟨pre, suf, hsplit, hm⟩ := ih h
      exact ⟨c :: pre, suf, by rw [hsplit]; rfl, hm⟩

/-- Case split for an initial segment of a cons. -/
lemma startsL_cases {p : List (List Char)} {l : List Char} {t : List (List Char)}
    (h : StartsL p (l :: t)) : p = [] ∨ ∃ q, p = l :: q ∧ StartsL q t := by
  rcases h with ⟨r, hr⟩
  cases p with
  | nil => exact Or.inl rfl
  | cons a p' =>
    right
    rw [List.cons_append] at hr
    injection hr with h1 h2
    exact ⟨p', by rw [h1], ⟨r, h2⟩⟩

/-- Characterization of the selection loop: either no tally beats the
accumulator and it is returned unchanged, or the result is the first registry
entry attaining a tally above the accumulator that no later entry exceeds. -/
lemma chooseAux_char (lines : List (List Char)) :
    ∀ (exs : List DateExtractor) (acc : Option DateExtractor × Nat),
      (chooseAux lines exs acc = acc ∧ ∀ ex ∈ exs, countMatches ex lines ≤ acc.2) ∨
      (∃ pre ex post, exs = pre ++ ex :: post ∧
        chooseAux lines exs acc = (some ex, countMatches ex lines) ∧
        acc.2 < countMatches ex lines ∧
        (∀ ey ∈ pre, countMatches ey lines < countMatches ex lines) ∧
        (∀ ey ∈ post, countMatches ey lines ≤ countMatches ex lines)) := by
  intro exs
  induction exs with
  | nil =>
    intro acc
    exact Or.inl ⟨rfl, by simp⟩
  | cons ex rest ih =>
    intro acc
    by_cases h : acc.2 < countMatches ex lines
    · have step : chooseAux lines (ex :: rest) acc =
          chooseAux lines rest (some ex, countMatches ex lines) := by
        simp [chooseAux, h]
      rcases ih (some ex, countMatches ex lines) with ⟨heq, hle⟩ | hright
      · refine Or.inr ⟨[], ex, rest, by simp, ?_, h, by simp, ?_⟩
        · rw [step, heq]
        · intro ey hy; exact hle ey hy
      · obtain ⟨pre, ex', post, hsplit, heq, hlt, hpre, hpost⟩ := hright
        refine Or.inr ⟨ex :: pre, ex', post, by rw [hsplit]; rfl, ?_, ?_, ?_, hpost⟩
        · rw [step, heq]
        · exact lt_trans h hlt
        · intro ey hy
          rcases List.mem_cons.mp hy with hy | hy
          · rw [hy]; exact hlt
          · exact hpre ey hy
    · have hle : countMatches ex lines ≤ acc.2 := Nat.le_of_not_lt h
      have step : chooseAux lines (ex :: rest) acc = chooseAux lines rest acc := by
        simp [chooseAux, h]
      rcases ih acc with ⟨heq, hrest⟩ | hright
      · refine Or.inl ⟨by rw [step, heq], ?_⟩
        intro ey hy
        rcases List.mem_cons.mp hy with hy | hy
        · rw [hy]; exact hle
        · exact hrest ey hy
      · obtain ⟨pre, ex', post, hsplit, heq, hlt, hpre, hpost⟩ := hright
        refine Or.inr ⟨ex :: pre, ex', post, by rw [hsplit]; rfl, ?_, hlt, ?_, hpost⟩
        · rw [step, heq]
        · intro ey hy
          rcases List.mem_cons.mp hy with hy | hy
          · rw [hy]; exact Nat.lt_of_le_of_lt hle hlt
          · exact hpre ey hy

/-- C2: `chooseExtractor` returns `none` exactly when no registered pattern
matches any sampled line; otherwise it returns the registration-order
earliest pattern whose per-line match count is maximal (the current best is
replaced only on a strictly greater count, so ties keep the earlier
pattern). -/
theorem chooseExtractor_first_argmax (nowYear : Nat) (lines : List (List Char)) :
    (chooseExtractor (extractors nowYear) lines = none ↔
      ∀ ex ∈ extractors nowYear, countMatches ex lines = 0) ∧
    (∀ ex, chooseExtractor (extractors nowYear) lines = some ex →
      0 < countMatches ex lines ∧
      ∃ pre post, extractors nowYear = pre ++ ex :: post ∧
        (∀ ey ∈ pre, countMatches ey lines < countMatches ex lines) ∧
        (∀ ey ∈ extractors nowYear, countMatches ey lines ≤ countMatches ex lines)) := by
  rcases chooseAux_char lines (extractors nowYear) (none, 0) with ⟨heq, hall⟩ | hright
  · have hres : chooseExtractor (extractors nowYear) lines = none := by
      unfold chooseExtractor
      rw [heq]
      simp
    constructor
    · constructor
      · intro _ ex hx
        exact Nat.le_zero.mp (hall ex hx)
      · intro _
        exact hres
    · intro ex hsome
      rw [hres] at hsome
      exact absurd hsome (by simp)
  · obtain ⟨pre, ex, post, hsplit, heq, hpos, hpre, hpost⟩ := hright
    have hmem : ex ∈ extractors nowYear := by
      rw [hsplit]
      exact List.mem_append.mpr (Or.inr (List.mem_cons_self ex post))
    have hres : chooseExtractor (extractors nowYear) lines = some ex := by
      unfold chooseExtractor
      rw [heq]
      by_cases hgate : 3 ≤ countMatches ex lines ∨ lines.length ≤ 10
      · simp [hgate]
      · simp [hgate, hpos]
    have hmax : ∀ ey ∈ extractors nowYear, countMatches ey lines ≤ countMatches ex lines := by
      intro ey hy
      rw [hsplit] at hy
      rcases List.mem_append.mp hy with hy | hy
      · exact Nat.le_of_lt (hpre ey hy)
      · rcases List.mem_cons.mp hy with hy | hy
        · rw [hy]
        · exact hpost ey hy
    constructor
    · constructor
      · intro hcontra
        rw [hres] at hcontra
        exact absurd hcontra (by simp)
      · intro hzero
        have := hzero ex hmem
        omega
    · intro ex' hsome
      rw [hres] at hsome
      have hx : ex = ex' := by
        injection hsome
      subst hx
      exact ⟨hpos, pre, post, hsplit, hpre, hmax⟩

/-- C2 witness: on the one-line sample `["2025-01-01"]` the detector returns
the iso pattern, the first pattern with the maximal (positive) count. -/
theorem chooseExtractor_first_argmax_witness :
    0 < countMatches isoExtractor ["2025-01-01".toList] ∧
    ∃ pre post, extractors 0 = pre ++ isoExtractor :: post ∧
      (∀ ey ∈ pre, countMatches ey ["2025-01-01".toList] <
        countMatches isoExtractor ["2025-01-01".toList]) ∧
      (∀ ey ∈ extractors 0, countMatches ey ["2025-01-01".toList] ≤
        countMatches isoExtractor ["2025-01-01".toList]) :=
  (chooseExtractor_first_argmax 0 ["2025-01-01".toList]).2 isoExtractor (by rfl)

/-- C3 counterexample: on a sample of 11 lines in which the iso pattern
matches exactly one line, the claim requires the detector to return none
(count below 3 and more than 10 sampled lines), yet the source returns the
iso pattern. -/
theorem chooseExtractor_gate_counterexample :
    (chooseExtractor (extractors 0)
        ("2025-01-01".toList :: List.replicate 10 "x".toList)).map
      (fun e => e.name) = some "iso-8601" ∧
    ("2025-01-01".toList :: List.replicate 10 "x".toList).length = 11 ∧
    countMatches isoExtractor ("2025-01-01".toList :: List.replicate 10 "x".toList) = 1 ∧
    (∀ ex ∈ extractors 0,
      countMatches ex ("2025-01-01".toList :: List.replicate 10 "x".toList) ≤ 1) ∧
    ¬(3 ≤ countMatches isoExtractor ("2025-01-01".toList :: List.replicate 10 "x".toList) ∨
      ("2025-01-01".toList :: List.replicate 10 "x".toList).length ≤ 10) := by
  refine ⟨by decide, by decide, by decide, ?_, by decide⟩
  decide

/-- C3 (amended): the detector returns a chosen pattern exactly when some
registered pattern matches at least one sampled line; the stated confidence
gate (count at least 3, or at most 10 sampled lines) is not an exclusive
condition, because the final line of `chooseExtractor` accepts the best
pattern whenever its count is positive. -/
theorem chooseExtractor_some_iff_positive (nowYear : Nat) (lines : List (List Char)) :
    (chooseExtractor (extractors nowYear) lines).isSome ↔
      ∃ ex ∈ extractors nowYear, 0 < countMatches ex lines := by
  rcases chooseAux_char lines (extractors nowYear) (none, 0) with ⟨heq, hall⟩ | hright
  · have hres : chooseExtractor (extractors nowYear) lines = none := by
      unfold chooseExtractor
      rw [heq]
      simp
    rw [hres]
    simp only [Option.isSome_none, Bool.false_eq_true, false_iff]
    rintro ⟨ex, hx, hpos⟩
    have := hall ex hx
    omega
  · obtain ⟨pre, ex, post, hsplit, heq, hpos, _, _⟩ := hright
    have hmem : ex ∈ extractors nowYear := by
      rw [hsplit]
      exact List.mem_append.mpr (Or.inr (List.mem_cons_self ex post))
    have hres : chooseExtractor (extractors nowYear) lines = some ex := by
      unfold chooseExtractor
      rw [heq]
      by_cases hgate : 3 ≤ countMatches ex lines ∨ lines.length ≤ 10
      · simp [hgate]
      · simp [hgate, hpos]
    rw [hres]
    simp only [Option.isSome_some, true_iff]
    exact ⟨ex, hmem, hpos⟩

/-- Step equation of the router: one iteration appends the line (plus a
newline) to the bucket of the routing key and applies the `lastDay` update. -/
lemma splitStep_spec (ex : Option DateExtractor) (ub : String)
    (st : (String → List Char) × Option String) (line : List Char) :
    splitStep ex ub st line =
      (fun k => if k = routeKeySpec ex ub st.2 line then st.1 k ++ line ++ ['\n'] else st.1 k,
       lastDaySpec ex st.2 line) := rfl

/-- C7: the double extraction in `splitFileByDay` (one call for the routing
key, a second for the `lastDay` update) is observationally equivalent to a
reference router that extracts once per line and reuses the value, because
`extractDate` is deterministic on identical inputs once the chosen extractor
and the current calendar year are fixed. -/
theorem splitFileByDay_single_extraction (ex : Option DateExtractor) (ub : String)
    (lines : List (List Char)) (init : String → List Char) :
    splitFileByDay ex ub lines init = splitFileByDayRef ex ub lines init := by
  have hstep : splitStep ex ub = splitStepRef ex ub := by
    funext st line
    rfl
  show lines.foldl (splitStep ex ub) (init, none) = lines.foldl (splitStepRef ex ub) (init, none)
  rw [hstep]

/-- Shift lemma for the router fold: the contents produced on top of initial
bucket contents `init` are `init` extended by the contents produced from
empty buckets, and the final `lastDay` is independent of `init`. -/
lemma splitFold_shift (ex : Option DateExtractor) (ub : String) (k : String) :
    ∀ (lines : List (List Char)) (init : String → List Char) (last : Option String),
      (List.foldl (splitStep ex ub) (init, last) lines).1 k =
        init k ++ (List.foldl (splitStep ex ub) (fun _ => [], last) lines).1 k ∧
      (List.foldl (splitStep ex ub) (init, last) lines).2 =
        (List.foldl (splitStep ex ub) (fun _ => [], last) lines).2 := by
  intro lines
  induction lines with
  | nil =>
    intro init last
    simp [List.foldl]
  | cons l ls ih =>
    intro init last
    simp only [List.foldl]
    rw [splitStep_spec ex ub (init, last) l, splitStep_spec ex ub ((fun _ => []), last) l]
    simp only
    obtain ⟨h1, h2⟩ := ih
      (fun k2 => if k2 = routeKeySpec ex ub last l then init k2 ++ l ++ ['\n'] else init k2)
      (lastDaySpec ex last l)
    obtain ⟨g1, g2⟩ := ih
      (fun k2 => if k2 = routeKeySpec ex ub last l then (fun _ => ([] : List Char)) k2 ++ l ++ ['\n']
        else (fun _ => ([] : List Char)) k2)
      (lastDaySpec ex last l)
    constructor
    · rw [h1, g1]
      by_cases hk : k = routeKeySpec ex ub last l
      · simp [hk, List.append_assoc]
      · simp [hk]
    · rw [h2, g2]

/-- C8: the output streams are opened in append mode (`{ flags: 'a' }`), so
the contents the router leaves in a bucket are the pre-existing file contents
followed by the run output; running the router twice over the same input
against the same output directory therefore leaves every bucket holding the
single-run content concatenated with itself, never an overwrite. -/
theorem splitFileByDay_append_accumulates (ex : Option DateExtractor) (ub : String)
    (lines : List (List Char)) (k : String) :
    (∀ init : String → List Char,
      (splitFileByDay ex ub lines init).1 k =
        init k ++ (splitFileByDay ex ub lines (fun _ => [])).1 k) ∧
    (splitFileByDay ex ub lines ((splitFileByDay ex ub lines (fun _ => [])).1)).1 k =
      (splitFileByDay ex ub lines (fun _ => [])).1 k ++
        (splitFileByDay ex ub lines (fun _ => [])).1 k := by
  have hshift : ∀ init : String → List Char,
      (splitFileByDay ex ub lines init).1 k =
        init k ++ (splitFileByDay ex ub lines (fun _ => [])).1 k := by
    intro init
    exact (splitFold_shift ex ub k lines init none).1
  exact ⟨hshift, hshift ((splitFileByDay ex ub lines (fun _ => [])).1)⟩

/-- C1: per line, the routing key is the extracted date when extraction
succeeds, else `lastKnownDay` when set, else the unknown bucket; the line
plus a newline is appended to the stream of that key; `lastKnownDay` is
updated exactly when extraction succeeds.  With the iso pattern chosen, the
sample input routes its middle (dateless) line to the `2025-01-01` bucket by
carry-forward and leaves every other bucket empty, and a dateless first line
with no prior `lastKnownDay` goes to the unknown bucket. -/
theorem splitFileByDay_routing_policy :
    (∀ (ex : Option DateExtractor) (ub : String)
        (st : (String → List Char) × Option String) (line : List Char),
      splitStep ex ub st line =
        (fun k => if k = routeKeySpec ex ub st.2 line then st.1 k ++ line ++ ['\n'] else st.1 k,
         lastDaySpec ex st.2 line)) ∧
    (splitFileByDay (some isoExtractor) "unknown"
        ["2025-01-01 start".toList, "no date here".toList, "2025-01-02 end".toList]
        (fun _ => [])).1 "2025-01-01" = "2025-01-01 start\nno date here\n".toList ∧
    (splitFileByDay (some isoExtractor) "unknown"
        ["2025-01-01 start".toList, "no date here".toList, "2025-01-02 end".toList]
        (fun _ => [])).1 "2025-01-02" = "2025-01-02 end\n".toList ∧
    (∀ k : String, k ≠ "2025-01-01" → k ≠ "2025-01-02" →
      (splitFileByDay (some isoExtractor) "unknown"
        ["2025-01-01 start".toList, "no date here".toList, "2025-01-02 end".toList]
        (fun _ => [])).1 k = []) ∧
    (splitFileByDay (some isoExtractor) "unknown" ["no date here".toList]
        (fun _ => [])).1 "unknown" = "no date here\n".toList := by
  refine ⟨fun ex ub st line => splitStep_spec ex ub st line, by decide, by decide, ?_, by decide⟩
  intro k h1 h2
  have e1 : extractDate "2025-01-01 start".toList (some isoExtractor) = some "2025-01-01" := by
    decide
  have e2 : extractDate "no date here".toList (some isoExtractor) = none := by decide
  have e3 : extractDate "2025-01-02 end".toList (some isoExtractor) = some "2025-01-02" := by
    decide
  simp only [splitFileByDay, List.foldl, splitStep_spec, routeKeySpec, lastDaySpec, e1, e2, e3]
  simp [h1, h2]

/-- C1 witness: the routing run of the sample input leaves an unrelated
bucket empty. -/
theorem splitFileByDay_routing_policy_witness :
    (splitFileByDay (some isoExtractor) "unknown"
        ["2025-01-01 start".toList, "no date here".toList, "2025-01-02 end".toList]
        (fun _ => [])).1 "2025-07-15" = [] :=
  splitFileByDay_routing_policy.2.2.2.1 "2025-07-15" (by decide) (by decide)

/-- Soundness of `lit`: success consumes exactly the literal character. -/
lemma lit_sound {c : Char} {s r : List Char} (h : lit c s = some r) : s = c :: r := by
  cases s with
  | nil => simp [lit] at h
  | cons a s' =>
    simp only [lit] at h
    by_cases ha : a = c
    · rw [if_pos ha] at h
      injection h with h
      rw [ha, h]
    · rw [if_neg ha] at h
      cases h

/-- Shape of a successful `isoAt` match: three all-digit capture groups of
widths 4, 2 and 2. -/
lemma isoAt_shape {s : List Char} {g : List String} (h : isoAt s = some g) :
    ∃ ys mos ds, g = [String.mk ys, String.mk mos, String.mk ds] ∧
      ys.length = 4 ∧ mos.length = 2 ∧ ds.length = 2 ∧
      (∀ c ∈ ys, c.isDigit = true) ∧ (∀ c ∈ mos, c.isDigit = true) ∧
      (∀ c ∈ ds, c.isDigit = true) := by
  simp only [isoAt, Option.bind_eq_bind, Option.bind_eq_some, Option.pure_def,
    Option.some.injEq] at h
  obtain ⟨⟨ys, r1⟩, hy, ⟨r2, _, ⟨⟨mos, r3⟩, hmo, ⟨r4, _, ⟨⟨ds, r5⟩, hd, hg⟩⟩⟩⟩⟩ := h
  obtain ⟨_, hylen, hydig⟩ := takeCount_sound hy
  obtain ⟨_, hmolen, hmodig⟩ := takeCount_sound hmo
  obtain ⟨_, hdlen, hddig⟩ := takeCount_sound hd
  exact ⟨ys, mos, ds, hg.symm, hylen, hmolen, hdlen, hydig, hmodig, hddig⟩

/-- Shape of a successful `slashYmdAt` match: three capture groups. -/
lemma slashYmdAt_groups {s : List Char} {g : List String} (h : slashYmdAt s = some g) :
    ∃ a b c, g = [a, b, c] := by
  simp only [slashYmdAt, Option.bind_eq_bind, Option.bind_eq_some, Option.pure_def,
    Option.some.injEq] at h
  obtain ⟨⟨ys, r1⟩, _, ⟨r2, _, ⟨⟨mos, r3⟩, _, ⟨r4, _, ⟨⟨ds, r5⟩, _, hg⟩⟩⟩⟩⟩ := h
  exact ⟨_, _, _, hg.symm⟩

/-- Shape of a successful `slashDmyAt` match: three capture groups. -/
lemma slashDmyAt_groups {s : List Char} {g : List String} (h : slashDmyAt s = some g) :
    ∃ a b c, g = [a, b, c] := by
  simp only [slashDmyAt, Option.bind_eq_bind, Option.bind_eq_some, Option.pure_def,
    Option.some.injEq] at h
  obtain ⟨⟨ds, r1⟩, _, ⟨r2, _, ⟨⟨mos, r3⟩, _, ⟨r4, _, ⟨⟨ys, r5⟩, _, hg⟩⟩⟩⟩⟩ := h
  exact ⟨_, _, _, hg.symm⟩

/-- Shape of a successful `looseAt` match: a four-digit year, a separator
that is a dash or a slash, two digits, a second independent separator that is
a dash or a slash, and two digits, in sequence at the match position. -/
lemma looseAt_sound {s : List Char} {y mo d : String} (h : looseAt s = some (y, mo, d)) :
    ∃ ys s1 mos s2 ds rest,
      y = String.mk ys ∧ mo = String.mk mos ∧ d = String.mk ds ∧
      (s1 = '-' ∨ s1 = '/') ∧ (s2 = '-' ∨ s2 = '/') ∧
      s = ys ++ s1 :: (mos ++ s2 :: (ds ++ rest)) ∧
      ys.length = 4 ∧ mos.length = 2 ∧ ds.length = 2 ∧
      (∀ c ∈ ys, c.isDigit = true) ∧ (∀ c ∈ mos, c.isDigit = true) ∧
      (∀ c ∈ ds, c.isDigit = true) := by
  have sep_sound : ∀ {s : List Char} {c : Char} {r : List Char},
      sepChar s = some (c, r) → s = c :: r ∧ (c = '-' ∨ c = '/') := by
    intro s c r hsep
    cases s with
    | nil => simp [sepChar] at hsep
    | cons a s' =>
      simp only [sepChar] at hsep
      by_cases ha : a = '-' ∨ a = '/'
      · rw [if_pos ha] at hsep
        injection hsep with hsep
        injection hsep with hc hr
        subst hc; subst hr
        exact ⟨rfl, ha⟩
      · rw [if_neg ha] at hsep
        cases hsep
  simp only [looseAt, Option.bind_eq_bind, Option.bind_eq_some, Option.pure_def,
    Option.some.injEq, Prod.mk.injEq] at h
  obtain ⟨⟨ys, r1⟩, hy, ⟨⟨s1, r2⟩, hsep1, ⟨⟨mos, r3⟩, hmo, ⟨⟨s2, r4⟩, hsep2,
    ⟨⟨ds, r5⟩, hd, hyy, hmm, hdd⟩⟩⟩⟩⟩ := h
  dsimp only at hsep1 hmo hsep2 hd hyy hmm hdd
  obtain ⟨hysplit, hylen, hydig⟩ := takeCount_sound hy
  obtain ⟨hmosplit, hmolen, hmodig⟩ := takeCount_sound hmo
  obtain ⟨hdsplit, hdlen, hddig⟩ := takeCount_sound hd
  obtain ⟨hr1, hs1⟩ := sep_sound hsep1
  obtain ⟨hr3, hs2⟩ := sep_sound hsep2
  refine ⟨ys, s1, mos, s2, ds, r5, hyy.symm, hmm.symm, hdd.symm, hs1, hs2, ?_,
    hylen, hmolen, hdlen, hydig, hmodig, hddig⟩
  rw [hysplit, hr1, hmosplit, hr3, hdsplit]

/-- C4: for every line the iso pattern matches, with a valid calendar date,
extraction with the iso pattern chosen returns exactly the matched date, and
the returned groups are canonical: a 4-digit year and 2-digit zero-padded
month and day (any attached time component is irrelevant, since the captured
groups are the same with or without it). -/
theorem iso_extraction_canonical (line : List Char) (y mo d : String)
    (hm : isoExtractor.exec line = some [y, mo, d])
    (hv : validDate y mo d = true) :
    extractDate line (some isoExtractor) = some (y ++ "-" ++ mo ++ "-" ++ d) ∧
    y.toList.length = 4 ∧ mo.toList.length = 2 ∧ d.toList.length = 2 ∧
    (∀ c ∈ y.toList, c.isDigit = true) ∧ (∀ c ∈ mo.toList, c.isDigit = true) ∧
    (∀ c ∈ d.toList, c.isDigit = true) := by
  constructor
  · simp only [extractDate]
    rw [hm]
    rfl
  · have hm' : firstMatch isoAt line = some [y, mo, d] := hm
    obtain ⟨pre, suf, _, hat⟩ := firstMatch_sound hm'
    obtain ⟨ys, mos, ds, hg, h4, h2a, h2b, hdy, hdm, hdd⟩ := isoAt_shape hat
    injection hg with hy hg
    injection hg with hmo hg
    injection hg with hd _
    subst hy; subst hmo; subst hd
    exact ⟨h4, h2a, h2b, hdy, hdm, hdd⟩

/-- C4 witness: a line with an attached time component extracts to the bare
canonical date. -/
theorem iso_extraction_canonical_witness :
    extractDate "2025-08-29T14:23:45".toList (some isoExtractor) =
      some ("2025" ++ "-" ++ "08" ++ "-" ++ "29") :=
  (iso_extraction_canonical "2025-08-29T14:23:45".toList "2025" "08" "29"
    (by rfl) (by decide)).1

/-- C5: when the chosen `dd-mon-yyyy` matcher matches a line but the month
token is not a recognized English abbreviation, extraction returns no date —
normalization rejection ends extraction for the line, so the loose fallback
is not attempted even when it would find a date elsewhere in the line. -/
theorem ddmon_invalid_month_rejects (line : List Char) (d mon y : String)
    (hm : ddMonExtractor.exec line = some [d, mon, y])
    (hmon : monthIndex mon = none) :
    extractDate line (some ddMonExtractor) = none ∧
    extractDate "01-Xxx-2025 and 2024-05-06".toList (some ddMonExtractor) = none ∧
    looseFallback "01-Xxx-2025 and 2024-05-06".toList = some "2024-05-06" := by
  refine ⟨?_, by decide, by decide⟩
  simp only [extractDate]
  rw [hm]
  show (match monthIndex mon with
    | none => none
    | some i => some (y ++ "-" ++ pad2 (i + 1) ++ "-" ++ d)) = none
  rw [hmon]

/-- C5 witness: the line whose leftmost `dd-mon-yyyy` match carries the month
token `Xxx` extracts to no date. -/
theorem ddmon_invalid_month_rejects_witness :
    extractDate "01-Xxx-2025 boom".toList (some ddMonExtractor) = none :=
  (ddmon_invalid_month_rejects "01-Xxx-2025 boom".toList "01" "Xxx" "2025"
    (by rfl) (by rfl)).1

/-- C6 counterexample: the claim states that a substring mixing the two
separators, such as `2025-01/02`, does not yield a date in the loose
fallback; the source regex has two independent `[-\/]` classes, so the mixed
substring does yield the date. -/
theorem loose_mixed_separator_counterexample :
    extractDate "x 2025-01/02".toList none = some "2025-01-02" := by decide

/-- C6 (amended): lines reaching the loose fallback (no pattern chosen, or
the chosen pattern does not match the line) yield a date only from a
substring of the form 4-digit year, a separator that is a dash or a slash,
2 digits, a second separator that is independently a dash or a slash (the
two need not agree), then 2 digits; the digits are kept as matched and
rendered with dash separators. -/
theorem loose_fallback_behavior (line : List Char) (s : String) :
    (extractDate line none = looseFallback line) ∧
    (∀ ex : DateExtractor, ex.exec line = none →
      extractDate line (some ex) = looseFallback line) ∧
    (looseFallback line = some s →
      ∃ ys s1 mos s2 ds pre rest,
        (s1 = '-' ∨ s1 = '/') ∧ (s2 = '-' ∨ s2 = '/') ∧
        line = pre ++ (ys ++ s1 :: (mos ++ s2 :: (ds ++ rest))) ∧
        ys.length = 4 ∧ mos.length = 2 ∧ ds.length = 2 ∧
        (∀ c ∈ ys, c.isDigit = true) ∧ (∀ c ∈ mos, c.isDigit = true) ∧
        (∀ c ∈ ds, c.isDigit = true) ∧
        s = String.mk ys ++ "-" ++ String.mk mos ++ "-" ++ String.mk ds) := by
  refine ⟨rfl, ?_, ?_⟩
  · intro ex hx
    simp only [extractDate]
    rw [hx]
  · intro hs
    simp only [looseFallback] at hs
    cases hfm : firstMatch looseAt line with
    | none => rw [hfm] at hs; cases hs
    | some t =>
      obtain ⟨y0, mo0, d0⟩ := t
      rw [hfm] at hs
      injection hs with hs
      obtain ⟨pre, suf, hsplit, hat⟩ := firstMatch_sound hfm
      obtain ⟨ys, s1, mos, s2, ds, rest, hy0, hmo0, hd0, hs1, hs2, hsufsplit,
        h4, h2a, h2b, hdy, hdm, hdd⟩ := looseAt_sound hat
      refine ⟨ys, s1, mos, s2, ds, pre, rest, hs1, hs2, ?_, h4, h2a, h2b, hdy, hdm, hdd, ?_⟩
      · rw [hsplit, hsufsplit]
      · rw [← hs, hy0, hmo0, hd0]

/-- C6 witness: a line the chosen iso pattern does not match falls through to
the loose fallback, which extracts from a mixed-separator substring. -/
theorem loose_fallback_behavior_witness :
    (extractDate "nope 2024/05-06".toList (some isoExtractor) =
      looseFallback "nope 2024/05-06".toList) ∧
    (∃ ys s1 mos s2 ds pre rest,
      (s1 = '-' ∨ s1 = '/') ∧ (s2 = '-' ∨ s2 = '/') ∧
      "nope 2024/05-06".toList = pre ++ (ys ++ s1 :: (mos ++ s2 :: (ds ++ rest))) ∧
      ys.length = 4 ∧ mos.length = 2 ∧ ds.length = 2 ∧
      (∀ c ∈ ys, c.isDigit = true) ∧ (∀ c ∈ mos, c.isDigit = true) ∧
      (∀ c ∈ ds, c.isDigit = true) ∧
      "2024-05-06" = String.mk ys ++ "-" ++ String.mk mos ++ "-" ++ String.mk ds) :=
  ⟨(loose_fallback_behavior "nope 2024/05-06".toList "2024-05-06").2.1
      isoExtractor (by rfl),
   (loose_fallback_behavior "nope 2024/05-06".toList "2024-05-06").2.2 (by rfl)⟩

/-- C10: the numeric patterns and the loose fallback never reject a match —
their normalizers always produce a date string, so impossible digit
combinations such as `2025-13-40` flow through extraction unchanged, become
the routing bucket, and feed the output file name; only the month-name
normalizers can reject. -/
theorem numeric_components_never_validated :
    (∀ (line : List Char) (g : List String), isoExtractor.exec line = some g →
      (isoExtractor.toISODate g).isSome = true) ∧
    (∀ (line : List Char) (g : List String), slashYmdExtractor.exec line = some g →
      (slashYmdExtractor.toISODate g).isSome = true) ∧
    (∀ (line : List Char) (g : List String), slashDmyExtractor.exec line = some g →
      (slashDmyExtractor.toISODate g).isSome = true) ∧
    (∀ line : List Char, (firstMatch looseAt line).isSome = true →
      (looseFallback line).isSome = true) ∧
    extractDate "2025-13-40 boom".toList (some isoExtractor) = some "2025-13-40" ∧
    extractDate "2025/13/40 boom".toList (some slashYmdExtractor) = some "2025-13-40" ∧
    extractDate "40/13/2025 boom".toList (some slashDmyExtractor) = some "2025-13-40" ∧
    extractDate "val=2025-13-40".toList none = some "2025-13-40" ∧
    (splitFileByDay (some isoExtractor) "unknown" ["2025-13-40 boom".toList]
      (fun _ => [])).1 "2025-13-40" = "2025-13-40 boom\n".toList ∧
    safeOutName "app.log" "2025-13-40" = "app.2025-13-40.log" ∧
    ddMonExtractor.toISODate ["40", "Xxx", "2025"] = none := by
  refine ⟨?_, ?_, ?_, ?_, by decide, by decide, by decide, by decide, by decide,
    by decide, by decide⟩
  · intro line g h
    obtain ⟨pre, suf, _, hat⟩ := firstMatch_sound (p := isoAt) h
    obtain ⟨ys, mos, ds, hg, _⟩ := isoAt_shape hat
    rw [hg]
    rfl
  · intro line g h
    obtain ⟨pre, suf, _, hat⟩ := firstMatch_sound (p := slashYmdAt) h
    obtain ⟨a, b, c, hg⟩ := slashYmdAt_groups hat
    rw [hg]
    rfl
  · intro line g h
    obtain ⟨pre, suf, _, hat⟩ := firstMatch_sound (p := slashDmyAt) h
    obtain ⟨a, b, c, hg⟩ := slashDmyAt_groups hat
    rw [hg]
    rfl
  · intro line h
    cases hfm : firstMatch looseAt line with
    | none => rw [hfm] at h; cases h
    | some t =>
      obtain ⟨y0, mo0, d0⟩ := t
      simp [looseFallback, hfm]

/-- C10 witness: a syntactically matching but impossible iso date is
normalized to a date string rather than rejected. -/
theorem numeric_components_never_validated_witness :
    (isoExtractor.toISODate ["9999", "99", "99"]).isSome = true :=
  numeric_components_never_validated.1 "9999-99-99".toList ["9999", "99", "99"] (by rfl)

/-- Byte length of a replicated ASCII line. -/
lemma utf8Len_replicate (n : Nat) : utf8Len (List.replicate n 'a') = n := by
  have h1 : charUtf8Size 'a' = 1 := rfl
  simp [utf8Len, List.map_replicate, h1, List.sum_replicate]

/-- Byte length of the oversized line. -/
lemma utf8Len_bigLine : utf8Len bigLine = 262145 := utf8Len_replicate 262145

/-- Invariant of the sampling loop: starting below both limits, the result
extends the accumulator by an initial segment of the remaining lines; the
line cap is respected, every proper initial segment of the consumed part is
strictly below both limits, and the loop stops only on exhaustion or on
reaching a limit. -/
lemma sampleAux_spec (maxLines maxBytes : Nat) :
    ∀ (rest acc : List (List Char)) (bytes : Nat),
      acc.length < maxLines → bytes < maxBytes →
      ∃ t, sampleAux maxLines maxBytes rest acc bytes = acc.reverse ++ t ∧
        StartsL t rest ∧
        acc.length + t.length ≤ maxLines ∧
        (∀ p, StartsL p t → p ≠ t →
          acc.length + p.length < maxLines ∧ bytes + sumBytes p < maxBytes) ∧
        (t = rest ∨ acc.length + t.length = maxLines ∨ maxBytes ≤ bytes + sumBytes t) := by
  intro rest
  induction rest with
  | nil =>
    intro acc bytes hL hB
    refine ⟨[], by simp [sampleAux], ⟨[], rfl⟩, by simpa using Nat.le_of_lt hL, ?_, Or.inl rfl⟩
    intro p hp hne
    rcases hp with ⟨q, hq⟩
    obtain ⟨hp0, -⟩ := List.append_eq_nil.mp hq
    exact absurd hp0 hne
  | cons l ls ih =>
    intro acc bytes hL hB
    by_cases hstop : maxLines ≤ (l :: acc).length ∨ maxBytes ≤ bytes + utf8Len l
    · have hres : sampleAux maxLines maxBytes (l :: ls) acc bytes = acc.reverse ++ [l] := by
        simp only [sampleAux]
        rw [if_pos hstop]
        simp
      have hlen1 : acc.length + [l].length ≤ maxLines := by
        simp only [List.length_cons, List.length_nil]
        omega
      refine ⟨[l], hres, ⟨ls, rfl⟩, hlen1, ?_, ?_⟩
      · intro p hp hne
        rcases startsL_cases hp with hp0 | ⟨q, hpq, hq⟩
        · subst hp0
          refine ⟨by simpa using hL, ?_⟩
          simp only [sumBytes, List.map_nil, List.sum_nil]
          omega
        · rcases hq with ⟨q2, hq2⟩
          obtain ⟨hq0, -⟩ := List.append_eq_nil.mp hq2
          subst hq0
          rw [hpq] at hne
          exact absurd rfl hne
      · rcases hstop with h | h
        · right; left
          simp only [List.length_cons, List.length_nil] at h ⊢
          omega
        · right; right
          simp only [sumBytes, List.map_cons, List.map_nil, List.sum_cons, List.sum_nil]
          omega
    · have hstop2 : ¬(maxLines ≤ (l :: acc).length ∨ maxBytes ≤ bytes + utf8Len l) := hstop
      push_neg at hstop
      obtain ⟨hL2, hB2⟩ := hstop
      obtain ⟨t', heq, hpref, hlen, hproper, hreason⟩ := ih (l :: acc) (bytes + utf8Len l) hL2 hB2
      have hstep : sampleAux maxLines maxBytes (l :: ls) acc bytes =
          sampleAux maxLines maxBytes ls (l :: acc) (bytes + utf8Len l) := by
        simp only [sampleAux]
        rw [if_neg hstop2]
      refine ⟨l :: t', ?_, ?_, ?_, ?_, ?_⟩
      · rw [hstep, heq]
        simp [List.reverse_cons, List.append_assoc]
      · rcases hpref with ⟨q, hq⟩
        exact ⟨q, by rw [List.cons_append, hq]⟩
      · simp only [List.length_cons] at hlen ⊢
        omega
      · intro p hp hne
        rcases startsL_cases hp with hp0 | ⟨q, hpq, hq⟩
        · subst hp0
          exact ⟨by simpa using hL, by simpa [sumBytes] using hB⟩
        · subst hpq
          have hqne : q ≠ t' := fun hc => hne (by rw [hc])
          obtain ⟨hql, hqb⟩ := hproper q hq hqne
          constructor
          · simp only [List.length_cons] at hql ⊢
            omega
          · simp only [sumBytes, List.map_cons, List.sum_cons] at hqb ⊢
            omega
      · rcases hreason with h | h | h
        · left; rw [h]
        · right; left
          simp only [List.length_cons] at h ⊢
          omega
        · right; right
          simp only [sumBytes, List.map_cons, List.sum_cons] at h ⊢
          omega

/-- C9 counterexample: with `maxSampleLines = 0` the sampler still returns
one line (the check `lines.length >= maxLines` runs only after the push), and
a first line larger than the byte budget is returned whole, so the result is
not bounded by the 256 KiB budget. -/
theorem sampleLines_counterexample :
    sampleLines [['a']] 0 = [['a']] ∧
    sampleLines [bigLine] 500 = [bigLine] ∧
    sumBytes (sampleLines [bigLine] 500) = 262145 := by
  have h2 : sampleLines [bigLine] 500 = [bigLine] := by
    show sampleAux 500 262144 [bigLine] [] 0 = [bigLine]
    simp only [sampleAux]
    rw [utf8Len_bigLine]
    norm_num
  refine ⟨by decide, h2, ?_⟩
  rw [h2]
  simp [sumBytes, utf8Len_bigLine]

/-- C9 (amended): for a positive line cap and byte budget, `sampleLines`
returns an initial segment of the file with at most `maxSampleLines` lines;
every proper initial segment of the result is strictly below both limits (so
sampling stops at whichever limit is reached first), and the loop ends only
on exhaustion, on reaching the line cap, or with the byte budget reached or
exceeded by the final included line. -/
theorem sampleLines_bounds (file : List (List Char)) (maxLines maxBytes : Nat)
    (hL : 1 ≤ maxLines) (hB : 1 ≤ maxBytes) :
    StartsL (sampleLines file maxLines maxBytes) file ∧
    (sampleLines file maxLines maxBytes).length ≤ maxLines ∧
    (∀ p, StartsL p (sampleLines file maxLines maxBytes) →
      p ≠ sampleLines file maxLines maxBytes →
      p.length < maxLines ∧ sumBytes p < maxBytes) ∧
    (sampleLines file maxLines maxBytes = file ∨
     (sampleLines file maxLines maxBytes).length = maxLines ∨
     maxBytes ≤ sumBytes (sampleLines file maxLines maxBytes)) := by
  obtain ⟨t, heq, hpref, hlen, hproper, hreason⟩ :=
    sampleAux_spec maxLines maxBytes file [] 0 (by simpa using hL) (by omega)
  have heq' : sampleLines file maxLines maxBytes = t := by
    simpa [sampleLines] using heq
  rw [heq']
  refine ⟨hpref, by simpa using hlen, ?_, ?_⟩
  · intro p hp hne
    obtain ⟨h1, h2⟩ := hproper p hp hne
    exact ⟨by simpa using h1, by simpa using h2⟩
  · rcases hreason with h | h | h
    · exact Or.inl h
    · exact Or.inr (Or.inl (by simpa using h))
    · exact Or.inr (Or.inr (by simpa using h))

/-- C9 witness: on a two-line file with a line cap of one, the sample holds
at most one line. -/
theorem sampleLines_bounds_witness :
    (sampleLines [['a'], ['b']] 1 262144).length ≤ 1 :=
  (sampleLines_bounds [['a'], ['b']] 1 262144 (by decide) (by decide)).2.1

end LogSplitter
